import Mathlib

/-!
Verification of the CoNLL-U parsing core in `UDLib.py`.

Python strings are modelled as `List Char` (`Str`).  Pure Python functions
become Lean functions; Python exceptions (AssertionError from the `assert`,
IndexError from out-of-range list indexing, KeyError from dict lookup)
become an explicit `Except PyError` result.  The `defaultdict(list)` used
for the dependency graph is modelled as an insertion-ordered association
list together with the defaultdict lookup semantics: reading a missing key
inserts that key with an empty list (as `defaultdict.__getitem__` does).
-/

/-- Python strings, modelled as their character sequences. -/
abbrev Str := List Char

/-- Splits a character list on every occurrence of the separator `c`,
modelling Python `s.split(sep)` for a one-character separator: the result
is never empty, separators are consumed, and an empty input gives `[[]]`. -/
def splitCh (c : Char) : Str → List Str
  | [] => [[]]
  | x :: xs =>
    if x = c then [] :: splitCh c xs
    else
      match splitCh c xs with
      | [] => [[x]]
      | g :: gs => (x :: g) :: gs

/-- Joins groups with a one-character separator, modelling `sep.join(...)`. -/
def joinCh (c : Char) : List Str → Str
  | [] => []
  | [g] => g
  | g :: gs => g ++ c :: joinCh c gs

/-- Models Python `str.splitlines` for text whose only line-terminator
character is `'\n'`: the empty string has no lines, and a trailing newline
does not produce a final empty line.  For nonempty `s`, `s` ends with a
newline exactly when the final group of `splitCh` is empty. -/
def pySplitlines (s : Str) : List Str :=
  if s = [] then []
  else
    let gs := splitCh '\n' s
    if gs.getLast? = some [] then gs.dropLast else gs

/-- Models Python `line.strip("\n")`: removes newline characters from both
ends of the string. -/
def stripNl (s : Str) : Str :=
  ((s.dropWhile (fun x => x = '\n')).reverse.dropWhile (fun x => x = '\n')).reverse

/-- Models Python `line.startswith("#")`. -/
def startsWithHash (s : Str) : Bool :=
  match s with
  | '#' :: _ => true
  | _ => false

/-- The ten CoNLL-U fields of `UDNode` in `UDLib.py`, in dataclass order. -/
structure UDNode where
  ID : Str
  FORM : Str
  LEMMA : Str
  UPOS : Str
  XPOS : Str
  FEATS : Str
  HEAD : Str
  DEPREL : Str
  DEPS : Str
  MISC : Str
deriving DecidableEq, Repr

/-- The field values of a node in the dataclass (= canonical) order. -/
def fieldsOf (n : UDNode) : List Str :=
  [n.ID, n.FORM, n.LEMMA, n.UPOS, n.XPOS, n.FEATS, n.HEAD, n.DEPREL, n.DEPS, n.MISC]

/-- `UDNode.__str__`: the ten fields joined by tabs. -/
def UDNode.render (n : UDNode) : Str :=
  joinCh '\t' (fieldsOf n)

/-- `UDEdge` from `UDLib.py`: an endpoint key, a relation label and a
directionality tag (the strings `"up"` or `"down"`). -/
structure UDEdge where
  head : Str
  relation : Str
  directionality : Str
deriving DecidableEq, Repr

/-- The string `"up"`. -/
def upS : Str := ['u', 'p']

/-- The string `"down"`. -/
def downS : Str := ['d', 'o', 'w', 'n']

/-- The string `"_"`. -/
def underscoreS : Str := ['_']

/-- The string `"0"`, the key of the virtual root. -/
def zeroS : Str := ['0']

/-- Python exceptions that the modelled code can raise. -/
inductive PyError where
  | assertionError
  | indexError
  | keyError (k : Str)
deriving DecidableEq, Repr

instance exceptDecEq {ε α : Type} [DecidableEq ε] [DecidableEq α] :
    DecidableEq (Except ε α)
  | .ok a, .ok b =>
    if h : a = b then .isTrue (by rw [h])
    else .isFalse (fun hc => h (by injection hc))
  | .ok _, .error _ => .isFalse (fun hc => Except.noConfusion hc)
  | .error _, .ok _ => .isFalse (fun hc => Except.noConfusion hc)
  | .error e, .error f =>
    if h : e = f then .isTrue (by rw [h])
    else .isFalse (fun hc => h (by injection hc))

/-- Lookup in an insertion-ordered association list, modelling reading a
Python `dict` (`None` models a missing key). -/
def dictLookup {α : Type} : List (Str × α) → Str → Option α
  | [], _ => none
  | (k, v) :: rest, key => if k = key then some v else dictLookup rest key

/-- Models `d[k] = v` on a Python `dict`: an existing key keeps its
insertion position and gets the new value; a new key is appended. -/
def dictInsert {α : Type} : List (Str × α) → Str → α → List (Str × α)
  | [], k, v => [(k, v)]
  | (k0, v0) :: rest, k, v =>
    if k0 = k then (k0, v) :: rest else (k0, v0) :: dictInsert rest k v

/-- Models `graph[k].append(e)` on a `defaultdict(list)`: a missing key is
created (at the end, with the empty list) and the edge is appended. -/
def graphAppend (g : List (Str × List UDEdge)) (k : Str) (e : UDEdge) :
    List (Str × List UDEdge) :=
  match g with
  | [] => [(k, [e])]
  | (k0, es) :: rest =>
    if k0 = k then (k0, es ++ [e]) :: rest else (k0, es) :: graphAppend rest k e

/-- The edge list stored under key `k` (the empty list for a missing key). -/
def edgesAt (g : List (Str × List UDEdge)) (k : Str) : List UDEdge :=
  (dictLookup g k).getD []

/-- The accumulating state of `conllu2graph`: comment lines, key order,
node dictionary and adjacency (graph) dictionary. -/
structure BuildAcc where
  id_lines : List Str
  keys : List Str
  nodes : List (Str × UDNode)
  graph : List (Str × List UDEdge)
deriving DecidableEq, Repr

/-- The up-edge inserted under a node's own key (lines 99-102 of the
source): `UDEdge(head=parent, relation=relation, directionality="up")`. -/
def upEdge (n : UDNode) : UDEdge :=
  ⟨n.HEAD, n.DEPREL, upS⟩

/-- The down-edge inserted under the parent key (lines 103-106 of the
source): `UDEdge(head=key, relation=relation, directionality="down")`. -/
def downEdge (n : UDNode) : UDEdge :=
  ⟨n.ID, n.DEPREL, downS⟩

/-- The graph update a single node line performs (lines 95-106 of the
source): nothing when `HEAD` is the placeholder `_`, otherwise the up-edge
is appended under the node's key and then the down-edge under the parent. -/
def stepG (g : List (Str × List UDEdge)) (n : UDNode) : List (Str × List UDEdge) :=
  if n.HEAD = underscoreS then g
  else graphAppend (graphAppend g n.ID (upEdge n)) n.HEAD (downEdge n)

/-- The full state update a single well-formed node line performs
(lines 91-106 of the source): the key is appended to `keys`, the node is
stored in `nodes` under its `ID`, and the graph is updated by `stepG`. -/
def stepNode (acc : BuildAcc) (n : UDNode) : BuildAcc :=
  ⟨acc.id_lines, acc.keys ++ [n.ID], dictInsert acc.nodes n.ID n, stepG acc.graph n⟩

/-- One iteration of the loop in `conllu2graph` (lines 85-106): a line
starting with `#` is appended verbatim to `id_lines`; any other line is
stripped of newlines and split on tabs, the `assert len(fields) == 10`
failing (AssertionError) unless exactly ten fields result, in which case
a `UDNode` is built from the fields and `stepNode` is applied. -/
def processLine (acc : BuildAcc) (line : Str) : Except PyError BuildAcc :=
  if startsWithHash line then
    .ok ⟨acc.id_lines ++ [line], acc.keys, acc.nodes, acc.graph⟩
  else
    match splitCh '\t' (stripNl line) with
    | [f0, f1, f2, f3, f4, f5, f6, f7, f8, f9] =>
      .ok (stepNode acc ⟨f0, f1, f2, f3, f4, f5, f6, f7, f8, f9⟩)
    | _ => .error .assertionError

/-- Runs `processLine` over the lines in order, aborting at the first
error, as the Python `for` loop does when the `assert` fires. -/
def runLines (acc : BuildAcc) : List Str → Except PyError BuildAcc
  | [] => .ok acc
  | l :: ls =>
    match processLine acc l with
    | .ok acc2 => runLines acc2 ls
    | .error e => .error e

/-- `conllu2graph` from `UDLib.py`: split the record into lines and run
the accumulation loop from the empty state. -/
def conllu2graph (record : Str) : Except PyError BuildAcc :=
  runLines ⟨[], [], [], []⟩ (pySplitlines record)

/-- `UDTree` from `UDLib.py`. -/
structure UDTree where
  id_lines : List Str
  keys : List Str
  nodes : List (Str × UDNode)
  graph : List (Str × List UDEdge)
deriving DecidableEq, Repr

/-- The `UDTree(*conllu2graph(block))` constructor call. -/
def mkUDTree (acc : BuildAcc) : UDTree :=
  ⟨acc.id_lines, acc.keys, acc.nodes, acc.graph⟩

/-- The node lines of `UDTree.__str__`: `str(self.nodes[key])` for each
key, a missing key raising KeyError. -/
def renderLines (nodes : List (Str × UDNode)) : List Str → Except PyError (List Str)
  | [] => .ok []
  | k :: ks =>
    match dictLookup nodes k with
    | some n =>
      match renderLines nodes ks with
      | .ok rest => .ok (UDNode.render n :: rest)
      | .error e => .error e
    | none => .error (.keyError k)

/-- `UDTree.__str__` (lines 56-58): the comment lines followed by the
rendered nodes in `keys` order, joined by single newlines. -/
def UDTree.render (t : UDTree) : Except PyError Str :=
  match renderLines t.nodes t.keys with
  | .ok ls => .ok (joinCh '\n' (t.id_lines ++ ls))
  | .error e => .error e

/-- Models Python `str.lower` (character-wise lowercasing). -/
def pyLower (s : Str) : Str :=
  s.map Char.toLower

/-- The lowercased `FORM` fields of `UDTree.get_sentence`, gathered in
`keys` order with a KeyError on a missing key. -/
def sentenceForms (nodes : List (Str × UDNode)) : List Str → Except PyError (List Str)
  | [] => .ok []
  | k :: ks =>
    match dictLookup nodes k with
    | some n =>
      match sentenceForms nodes ks with
      | .ok rest => .ok (pyLower n.FORM :: rest)
      | .error e => .error e
    | none => .error (.keyError k)

/-- `UDTree.get_sentence` (lines 60-61): space-joined lowercased forms. -/
def UDTree.get_sentence (t : UDTree) : Except PyError Str :=
  match sentenceForms t.nodes t.keys with
  | .ok fs => .ok (joinCh ' ' fs)
  | .error e => .error e

/-- The `defaultdict` read `self.graph[node_idx]`: a present key returns
its list and leaves the dict alone; a missing key is inserted at the end
with the empty list, which is also returned. -/
def defaultGet (g : List (Str × List UDEdge)) (k : Str) :
    List UDEdge × List (Str × List UDEdge) :=
  match dictLookup g k with
  | some es => (es, g)
  | none => ([], g ++ [(k, [])])

/-- `UDTree.get_node_children` (lines 63-65): the `head` fields of the
`"down"` edges under `node_idx`, in stored order, together with the tree
after the `defaultdict` access (which may have inserted the key). -/
def UDTree.get_node_children (t : UDTree) (k : Str) : List Str × UDTree :=
  let p := defaultGet t.graph k
  ((p.1.filter (fun e => e.directionality = downS)).map (fun e => e.head),
   ⟨t.id_lines, t.keys, t.nodes, p.2⟩)

/-- `UDTree.get_real_root` (lines 67-69): `self.get_node_children('0')[0]`,
an empty child list raising IndexError. -/
def UDTree.get_real_root (t : UDTree) : Except PyError Str × UDTree :=
  let p := t.get_node_children zeroS
  (match p.1 with
   | [] => .error .indexError
   | c :: _ => .ok c,
   p.2)

/-- A comment line as the round-trip claims assume: it starts with `#`
and contains no newline. -/
def commentOK (l : Str) : Prop :=
  startsWithHash l = true ∧ '\n' ∉ l

/-- A node row as the round-trip claims assume: no field contains a tab
or a newline, and its rendered line does not start with `#` (otherwise
the line would be read back as a comment). -/
def nodeOK (n : UDNode) : Prop :=
  (∀ f ∈ fieldsOf n, '\t' ∉ f ∧ '\n' ∉ f) ∧ startsWithHash (UDNode.render n) = false

instance (l : Str) : Decidable (commentOK l) := by
  unfold commentOK; infer_instance

instance (n : UDNode) : Decidable (nodeOK n) := by
  unfold nodeOK; infer_instance

/-- A valid block of text: comment lines first, then one line per node
row, joined by single newlines with no trailing newline. -/
def mkBlock (comments : List Str) (ns : List UDNode) : Str :=
  joinCh '\n' (comments ++ ns.map UDNode.render)

/-- Parsing followed by rendering, the round-trip composite
`str(UDTree(*conllu2graph(block)))`. -/
def parseRender (b : Str) : Except PyError Str :=
  match conllu2graph b with
  | .ok acc => (mkUDTree acc).render
  | .error e => .error e

/-- The tree a block parses to (the dummy empty tree when parsing fails;
used only to state facts about successfully parsed concrete blocks). -/
def treeOf (b : Str) : UDTree :=
  match conllu2graph b with
  | .ok acc => mkUDTree acc
  | .error _ => mkUDTree ⟨[], [], [], []⟩

/-- The key order of a successful parse (empty on failure). -/
def keysOf (r : Except PyError BuildAcc) : List Str :=
  match r with
  | .ok acc => acc.keys
  | .error _ => []

/-- The graph of a successful parse (empty on failure). -/
def graphOf (r : Except PyError BuildAcc) : List (Str × List UDEdge) :=
  match r with
  | .ok acc => acc.graph
  | .error _ => []

/-- Occurrence count of an edge in an edge list. -/
def countE (e : UDEdge) : List UDEdge → Nat
  | [] => 0
  | x :: xs => (if x = e then 1 else 0) + countE e xs

/-- Occurrence count of an edge in the adjacency list of key `k`. -/
def countEdge (g : List (Str × List UDEdge)) (k : Str) (e : UDEdge) : Nat :=
  countE e (edgesAt g k)

/-- `nodes.foldl` insertion of rows into the node dictionary. -/
def insertAll (d : List (Str × UDNode)) (ns : List UDNode) : List (Str × UDNode) :=
  ns.foldl (fun d0 n => dictInsert d0 n.ID n) d

/-- The node stored under key `k` (a default empty node when the key is
absent; used only to phrase claims about trees whose keys are all
present). -/
def nodeD (nodes : List (Str × UDNode)) (k : Str) : UDNode :=
  (dictLookup nodes k).getD ⟨[], [], [], [], [], [], [], [], [], []⟩

/-- The number of copies of edge `e` that processing row `n` adds to the
adjacency list of key `k`: zero when `HEAD` is the placeholder `_`,
otherwise one for the up-edge under the row's own ID plus one for the
down-edge under the row's parent key. -/
def contrib (k : Str) (e : UDEdge) (n : UDNode) : Nat :=
  if n.HEAD = underscoreS then 0
  else (if k = n.ID ∧ upEdge n = e then 1 else 0) +
       (if k = n.HEAD ∧ downEdge n = e then 1 else 0)

/-- The comment line of the concrete scenario block from the spec. -/
def exComments : List Str := ["# sent_id = ex1".toList]

/-- Row `1  The  the  DET  _  _  2  det  _  _` of the scenario block. -/
def exN1 : UDNode :=
  ⟨"1".toList, "The".toList, "the".toList, "DET".toList, "_".toList, "_".toList,
   "2".toList, "det".toList, "_".toList, "_".toList⟩

/-- Row `2  cat  cat  NOUN  _  _  3  nsubj  _  _` of the scenario block. -/
def exN2 : UDNode :=
  ⟨"2".toList, "cat".toList, "cat".toList, "NOUN".toList, "_".toList, "_".toList,
   "3".toList, "nsubj".toList, "_".toList, "_".toList⟩

/-- Row `3  sleeps  sleep  VERB  _  _  0  root  _  _` of the scenario block. -/
def exN3 : UDNode :=
  ⟨"3".toList, "sleeps".toList, "sleep".toList, "VERB".toList, "_".toList, "_".toList,
   "0".toList, "root".toList, "_".toList, "_".toList⟩

/-- The three rows of the scenario block. -/
def exNodes : List UDNode := [exN1, exN2, exN3]

/-- The concrete scenario block from the spec, as one string. -/
def exBlock : Str := mkBlock exComments exNodes

/-- A block whose two rows share the ID `1` (the fields otherwise differ). -/
def dupBlock : Str :=
  ("1\ta\t_\t_\t_\t_\t0\troot\t_\t_" ++ "\n" ++ "1\tb\t_\t_\t_\t_\t0\troot\t_\t_").toList

/-- A one-line block whose only line has three tab-separated fields. -/
def badBlock : Str := "1\ta\tb".toList

/-- A one-line block whose single row has `HEAD = _`, so its graph has no
entry at the virtual root `"0"`. -/
def c4Block : Str := "1\tto\tto\tADP\t_\t_\t_\t_\t_\t_".toList

/-- A multiword-token row `2-3  cannot  _  _  _  _  _  _  _  _` with the
placeholder head. -/
def wtMw : UDNode :=
  ⟨"2-3".toList, "cannot".toList, "_".toList, "_".toList, "_".toList, "_".toList,
   "_".toList, "_".toList, "_".toList, "_".toList⟩

/-- Row `2  can  can  AUX  _  _  1  aux  _  _`. -/
def wtN2 : UDNode :=
  ⟨"2".toList, "can".toList, "can".toList, "AUX".toList, "_".toList, "_".toList,
   "1".toList, "aux".toList, "_".toList, "_".toList⟩

/-- Rows of a block containing a multiword-token row: the root row `exN3`
would not fit, so it uses a small dedicated row set. -/
def wtNodes : List UDNode :=
  [⟨"1".toList, "go".toList, "go".toList, "VERB".toList, "_".toList, "_".toList,
    "0".toList, "root".toList, "_".toList, "_".toList⟩, wtMw, wtN2]

/-- The string `"9"`, a key absent from the scenario block's graph. -/
def nineS : Str := ['9']

/-! ### Splitting and joining -/

theorem splitCh_ne_nil (c : Char) (l : Str) : splitCh c l ≠ [] := by
  induction l with
  | nil => simp [splitCh]
  | cons x xs ih =>
    by_cases h : x = c
    · simp [splitCh, h]
    · simp only [splitCh, if_neg h]
      cases hs : splitCh c xs with
      | nil => simp
      | cons g gs => simp

theorem splitCh_of_not_mem (c : Char) (g : Str) (h : c ∉ g) : splitCh c g = [g] := by
  induction g with
  | nil => simp [splitCh]
  | cons x xs ih =>
    have hx : ¬ x = c := by
      intro he; exact h (he ▸ List.mem_cons_self x xs)
    have hxs : c ∉ xs := fun hm => h (List.mem_cons_of_mem _ hm)
    simp [splitCh, hx, ih hxs]

theorem splitCh_append_cons (c : Char) (g t : Str) (h : c ∉ g) :
    splitCh c (g ++ c :: t) = g :: splitCh c t := by
  induction g with
  | nil => simp [splitCh]
  | cons x xs ih =>
    have hx : ¬ x = c := by
      intro he; exact h (he ▸ List.mem_cons_self x xs)
    have hxs : c ∉ xs := fun hm => h (List.mem_cons_of_mem _ hm)
    simp only [List.cons_append, splitCh, if_neg hx, List.append_eq, ih hxs]

theorem splitCh_joinCh (c : Char) (gs : List Str) (h0 : gs ≠ [])
    (h : ∀ g ∈ gs, c ∉ g) : splitCh c (joinCh c gs) = gs := by
  induction gs with
  | nil => exact absurd rfl h0
  | cons g tl ih =>
    cases tl with
    | nil => exact splitCh_of_not_mem c g (h g (List.mem_cons_self g []))
    | cons g2 tl2 =>
      have hg : c ∉ g := h g (List.mem_cons_self _ _)
      have hrest : ∀ x ∈ g2 :: tl2, c ∉ x := fun x hx => h x (List.mem_cons_of_mem _ hx)
      have : joinCh c (g :: g2 :: tl2) = g ++ c :: joinCh c (g2 :: tl2) := rfl
      rw [this, splitCh_append_cons c g _ hg, ih (by simp) hrest]

theorem mem_joinCh (c : Char) (gs : List Str) (x : Char) (hx : x ∈ joinCh c gs) :
    x = c ∨ ∃ g ∈ gs, x ∈ g := by
  induction gs with
  | nil => simp [joinCh] at hx
  | cons g tl ih =>
    cases tl with
    | nil =>
      right
      exact ⟨g, List.mem_cons_self _ _, hx⟩
    | cons g2 tl2 =>
      have : joinCh c (g :: g2 :: tl2) = g ++ c :: joinCh c (g2 :: tl2) := rfl
      rw [this] at hx
      rcases List.mem_append.mp hx with hg | hrest
      · exact Or.inr ⟨g, List.mem_cons_self _ _, hg⟩
      · rcases List.mem_cons.mp hrest with he | hm
        · exact Or.inl he
        · rcases ih hm with he | ⟨g0, hg0, hxg0⟩
          · exact Or.inl he
          · exact Or.inr ⟨g0, List.mem_cons_of_mem _ hg0, hxg0⟩

theorem joinCh_ne_nil (c : Char) (gs : List Str) (h0 : gs ≠ [])
    (h : ∀ g ∈ gs, g ≠ []) : joinCh c gs ≠ [] := by
  cases gs with
  | nil => exact absurd rfl h0
  | cons g tl =>
    cases tl with
    | nil => exact h g (List.mem_cons_self _ _)
    | cons g2 tl2 =>
      have : joinCh c (g :: g2 :: tl2) = g ++ c :: joinCh c (g2 :: tl2) := rfl
      rw [this]
      simp

theorem mem_of_getLast?_eq {α : Type} {l : List α} {a : α} (h : l.getLast? = some a) :
    a ∈ l := by
  induction l with
  | nil => simp at h
  | cons x xs ih =>
    cases xs with
    | nil =>
      simp at h
      simp [h]
    | cons y ys =>
      rw [List.getLast?_cons_cons] at h
      exact List.mem_cons_of_mem _ (ih h)

theorem pySplitlines_joinCh (lines : List Str) (h : ∀ l ∈ lines, l ≠ [] ∧ '\n' ∉ l) :
    pySplitlines (joinCh '\n' lines) = lines := by
  cases hl : lines with
  | nil => simp [pySplitlines, joinCh]
  | cons l0 tl =>
    subst hl
    have hne : joinCh '\n' (l0 :: tl) ≠ [] :=
      joinCh_ne_nil '\n' _ (by simp) (fun g hg => (h g hg).1)
    have hsplit : splitCh '\n' (joinCh '\n' (l0 :: tl)) = l0 :: tl :=
      splitCh_joinCh '\n' _ (by simp) (fun g hg => (h g hg).2)
    unfold pySplitlines
    rw [if_neg hne]
    simp only [hsplit]
    have hlast : ¬ (l0 :: tl).getLast? = some [] := by
      intro hc
      exact (h [] (mem_of_getLast?_eq hc)).1 rfl
    rw [if_neg hlast]

/-! ### Line handling -/

theorem dropNl_eq_self (l : Str) (h : '\n' ∉ l) :
    l.dropWhile (fun x => x = '\n') = l := by
  cases l with
  | nil => rfl
  | cons x xs =>
    have hx : ¬ x = '\n' := fun he => h (he ▸ List.mem_cons_self x xs)
    simp [List.dropWhile_cons, hx]

theorem stripNl_of_no_nl (l : Str) (h : '\n' ∉ l) : stripNl l = l := by
  unfold stripNl
  rw [dropNl_eq_self l h, dropNl_eq_self l.reverse (by simpa using h),
    List.reverse_reverse]

theorem render_ne_nil (n : UDNode) : UDNode.render n ≠ [] := by
  show joinCh '\t'
    [n.ID, n.FORM, n.LEMMA, n.UPOS, n.XPOS, n.FEATS, n.HEAD, n.DEPREL, n.DEPS, n.MISC] ≠ []
  show n.ID ++ '\t' :: joinCh '\t'
    [n.FORM, n.LEMMA, n.UPOS, n.XPOS, n.FEATS, n.HEAD, n.DEPREL, n.DEPS, n.MISC] ≠ []
  simp

theorem render_no_nl (n : UDNode) (hf : ∀ f ∈ fieldsOf n, '\t' ∉ f ∧ '\n' ∉ f) :
    '\n' ∉ UDNode.render n := by
  intro hm
  rcases mem_joinCh '\t' (fieldsOf n) '\n' hm with he | ⟨g, hg, hxg⟩
  · exact absurd he (by decide)
  · exact (hf g hg).2 hxg

theorem processLine_comment (acc : BuildAcc) (l : Str) (h : startsWithHash l = true) :
    processLine acc l = .ok ⟨acc.id_lines ++ [l], acc.keys, acc.nodes, acc.graph⟩ := by
  simp [processLine, h]

theorem processLine_render (acc : BuildAcc) (n : UDNode) (h : nodeOK n) :
    processLine acc (UDNode.render n) = .ok (stepNode acc n) := by
  obtain ⟨hf, hh⟩ := h
  unfold processLine
  rw [hh]
  simp only [Bool.false_eq_true, if_false]
  rw [stripNl_of_no_nl _ (render_no_nl n hf)]
  unfold UDNode.render
  rw [splitCh_joinCh '\t' (fieldsOf n) (by simp [fieldsOf]) (fun g hg => (hf g hg).1)]
  rfl

theorem runLines_comments (cs rest : List Str) (ils ks : List Str)
    (nds : List (Str × UDNode)) (g : List (Str × List UDEdge))
    (h : ∀ l ∈ cs, startsWithHash l = true) :
    runLines ⟨ils, ks, nds, g⟩ (cs ++ rest) = runLines ⟨ils ++ cs, ks, nds, g⟩ rest := by
  induction cs generalizing ils with
  | nil => simp
  | cons l tl ih =>
    have hl := h l (List.mem_cons_self _ _)
    have htl : ∀ x ∈ tl, startsWithHash x = true :=
      fun x hx => h x (List.mem_cons_of_mem _ hx)
    simp only [List.cons_append, runLines]
    rw [processLine_comment ⟨ils, ks, nds, g⟩ l hl]
    dsimp only
    simp only [List.append_eq]
    rw [ih (ils ++ [l]) htl, List.append_assoc, List.singleton_append]

theorem runLines_rows (ns : List UDNode) (acc : BuildAcc) (h : ∀ n ∈ ns, nodeOK n) :
    runLines acc (ns.map UDNode.render) = .ok (ns.foldl stepNode acc) := by
  induction ns generalizing acc with
  | nil => rfl
  | cons n tl ih =>
    simp only [List.map_cons, runLines, List.foldl_cons]
    rw [processLine_render acc n (h n (List.mem_cons_self _ _))]
    exact ih _ (fun x hx => h x (List.mem_cons_of_mem _ hx))

theorem pySplitlines_mkBlock (comments : List Str) (ns : List UDNode)
    (hc : ∀ l ∈ comments, commentOK l) (hn : ∀ n ∈ ns, nodeOK n) :
    pySplitlines (mkBlock comments ns) = comments ++ ns.map UDNode.render := by
  apply pySplitlines_joinCh
  intro l hl
  rcases List.mem_append.mp hl with hcm | hrm
  · obtain ⟨hs, hnl⟩ := hc l hcm
    refine ⟨?_, hnl⟩
    intro he
    subst he
    simp [startsWithHash] at hs
  · obtain ⟨n, hn0, rfl⟩ := List.mem_map.mp hrm
    obtain ⟨hf, _⟩ := hn n hn0
    exact ⟨render_ne_nil n, render_no_nl n hf⟩

theorem conllu2graph_mkBlock (comments : List Str) (ns : List UDNode)
    (hc : ∀ l ∈ comments, commentOK l) (hn : ∀ n ∈ ns, nodeOK n) :
    conllu2graph (mkBlock comments ns) = .ok (ns.foldl stepNode ⟨comments, [], [], []⟩) := by
  unfold conllu2graph
  rw [pySplitlines_mkBlock comments ns hc hn]
  rw [runLines_comments comments (ns.map UDNode.render) [] [] [] []
    (fun l hl => (hc l hl).1)]
  rw [runLines_rows ns _ hn]
  simp

theorem foldl_stepNode_spec (ns : List UDNode) (ils ks : List Str)
    (nds : List (Str × UDNode)) (g : List (Str × List UDEdge)) :
    ns.foldl stepNode ⟨ils, ks, nds, g⟩ =
      ⟨ils, ks ++ ns.map (fun n => n.ID), insertAll nds ns, ns.foldl stepG g⟩ := by
  induction ns generalizing ks nds g with
  | nil => simp [insertAll]
  | cons n tl ih =>
    simp only [List.foldl_cons, List.map_cons]
    rw [show stepNode ⟨ils, ks, nds, g⟩ n =
      ⟨ils, ks ++ [n.ID], dictInsert nds n.ID n, stepG g n⟩ from rfl]
    rw [ih]
    simp [insertAll, List.append_assoc]

/-! ### Dictionary lemmas -/

theorem dictLookup_insert_self {α : Type} (d : List (Str × α)) (k : Str) (v : α) :
    dictLookup (dictInsert d k v) k = some v := by
  induction d with
  | nil => simp [dictInsert, dictLookup]
  | cons p rest ih =>
    obtain ⟨k0, v0⟩ := p
    by_cases h : k0 = k
    · simp [dictInsert, dictLookup, h]
    · simp [dictInsert, dictLookup, h, ih]

theorem dictLookup_insert_ne {α : Type} (d : List (Str × α)) (k k2 : Str) (v : α)
    (h : k2 ≠ k) : dictLookup (dictInsert d k v) k2 = dictLookup d k2 := by
  induction d with
  | nil =>
    have : ¬ k = k2 := fun he => h he.symm
    simp [dictInsert, dictLookup, this]
  | cons p rest ih =>
    obtain ⟨k0, v0⟩ := p
    by_cases h0 : k0 = k
    · subst h0
      have : ¬ k0 = k2 := fun he => h he.symm
      simp [dictInsert, dictLookup, this]
    · by_cases h2 : k0 = k2
      · simp [dictInsert, dictLookup, h0, h2, h]
      · simp [dictInsert, dictLookup, h0, h2, ih]

theorem insertAll_cons (d : List (Str × UDNode)) (n : UDNode) (tl : List UDNode) :
    insertAll d (n :: tl) = insertAll (dictInsert d n.ID n) tl := rfl

theorem lookup_insertAll_not_mem (k : Str) :
    ∀ (ms : List UDNode) (d : List (Str × UDNode)),
      k ∉ ms.map (fun n => n.ID) → dictLookup (insertAll d ms) k = dictLookup d k := by
  intro ms
  induction ms with
  | nil => intro d _; rfl
  | cons m tl ih =>
    intro d h
    simp only [List.map_cons, List.mem_cons, not_or] at h
    obtain ⟨h1, h2⟩ := h
    rw [insertAll_cons, ih _ h2, dictLookup_insert_ne d m.ID k m h1]

theorem lookup_insertAll_mem (n : UDNode) :
    ∀ (ms : List UDNode) (d : List (Str × UDNode)),
      (ms.map (fun x => x.ID)).Nodup → n ∈ ms →
      dictLookup (insertAll d ms) n.ID = some n := by
  intro ms
  induction ms with
  | nil =>
    intro d _ hmem
    simp at hmem
  | cons m tl ih =>
    intro d hdist hmem
    simp only [List.map_cons, List.nodup_cons] at hdist
    obtain ⟨hnotin, hdist2⟩ := hdist
    rcases List.mem_cons.mp hmem with he | hm
    · subst he
      rw [insertAll_cons, lookup_insertAll_not_mem n.ID tl _ hnotin]
      exact dictLookup_insert_self d n.ID n
    · exact insertAll_cons d m tl ▸ ih (dictInsert d m.ID m) hdist2 hm

theorem renderLines_ids (ms : List UDNode) (D : List (Str × UDNode))
    (hD : ∀ n ∈ ms, dictLookup D n.ID = some n) :
    renderLines D (ms.map (fun n => n.ID)) = .ok (ms.map UDNode.render) := by
  induction ms with
  | nil => rfl
  | cons m tl ih =>
    simp only [List.map_cons, renderLines]
    rw [hD m (List.mem_cons_self _ _)]
    dsimp only
    rw [ih (fun x hx => hD x (List.mem_cons_of_mem _ hx))]

/-! ### Claim C1: round-trip -/

/-- Claim C1 (amended): for every valid block — comment lines first, no
tab or newline inside any field, lines joined by single newlines, no
trailing newline — whose node IDs are pairwise distinct, rendering the
`UDTree` built from the block reproduces the block exactly. -/
theorem c1_roundtrip (comments : List Str) (ns : List UDNode)
    (hc : ∀ l ∈ comments, commentOK l) (hn : ∀ n ∈ ns, nodeOK n)
    (hdist : (ns.map (fun n => n.ID)).Nodup) :
    parseRender (mkBlock comments ns) = .ok (mkBlock comments ns) := by
  unfold parseRender
  rw [conllu2graph_mkBlock comments ns hc hn, foldl_stepNode_spec]
  dsimp only
  unfold mkUDTree UDTree.render
  dsimp only
  rw [List.nil_append]
  rw [renderLines_ids ns (insertAll [] ns)
    (fun n hn0 => lookup_insertAll_mem n ns [] hdist hn0)]
  rfl

/-- Witness for C1 at the concrete scenario block from the spec. -/
theorem c1_roundtrip_witness :
    parseRender (mkBlock exComments exNodes) = .ok (mkBlock exComments exNodes) :=
  c1_roundtrip exComments exNodes (by decide) (by decide) (by decide)

/-- Counterexample to C1 as stated: `dupBlock` is a valid block in the
claim's sense (comment lines first, no tab or newline in any field, single
newlines, no trailing newline), yet because its two rows share the ID `1`
the second row overwrites the first in `nodes` and rendering repeats the
second row, so the round-trip fails. -/
theorem c1_counterexample : parseRender dupBlock ≠ .ok dupBlock := by decide

/-! ### Claim C5: key ordering -/

/-- Claim C5: for every well-formed block, the `keys` returned by the
builder are exactly the ID fields of the non-comment lines in their order
of appearance (multiword rows, placeholder-head rows and duplicate IDs
included), so their number equals the number of non-comment lines. -/
theorem c5_keys_order (comments : List Str) (ns : List UDNode)
    (hc : ∀ l ∈ comments, commentOK l) (hn : ∀ n ∈ ns, nodeOK n) :
    keysOf (conllu2graph (mkBlock comments ns)) = ns.map (fun n => n.ID) ∧
    (keysOf (conllu2graph (mkBlock comments ns))).length = ns.length := by
  have h := conllu2graph_mkBlock comments ns hc hn
  rw [foldl_stepNode_spec] at h
  rw [h]
  unfold keysOf
  dsimp only
  simp

/-- Witness for C5 at the concrete scenario block. -/
theorem c5_keys_order_witness :
    keysOf (conllu2graph (mkBlock exComments exNodes)) = exNodes.map (fun n => n.ID) ∧
    (keysOf (conllu2graph (mkBlock exComments exNodes))).length = exNodes.length :=
  c5_keys_order exComments exNodes (by decide) (by decide)

/-! ### Claim C10: comment-only blocks -/

/-- Claim C10: a block consisting only of comment lines (the empty block
included) builds successfully into the tree with those lines verbatim as
`id_lines` and empty `keys`, `nodes` and `graph`; rendering that tree
returns exactly the comment lines joined by single newlines. -/
theorem c10_comment_only (comments : List Str) (hc : ∀ l ∈ comments, commentOK l) :
    conllu2graph (mkBlock comments []) = .ok ⟨comments, [], [], []⟩ ∧
    (mkUDTree ⟨comments, [], [], []⟩).render = .ok (mkBlock comments []) := by
  constructor
  · rw [conllu2graph_mkBlock comments [] hc (by simp)]
    rfl
  · unfold mkUDTree UDTree.render
    dsimp only
    show Except.ok (joinCh '\n' (comments ++ [])) = Except.ok (mkBlock comments [])
    rfl

/-- Witness for C10 at the scenario block's comment line. -/
theorem c10_comment_only_witness :
    conllu2graph (mkBlock exComments []) = .ok ⟨exComments, [], [], []⟩ ∧
    (mkUDTree ⟨exComments, [], [], []⟩).render = .ok (mkBlock exComments []) :=
  c10_comment_only exComments (by decide)

/-! ### Claim C3: malformed lines -/

theorem processLine_bad (acc : BuildAcc) (l : Str) (hs : startsWithHash l = false)
    (hlen : (splitCh '\t' (stripNl l)).length ≠ 10) :
    processLine acc l = .error .assertionError := by
  unfold processLine
  rw [hs]
  simp only [Bool.false_eq_true, if_false]
  revert hlen
  generalize splitCh '\t' (stripNl l) = fs
  intro hlen
  rcases fs with _ | ⟨a0, _ | ⟨a1, _ | ⟨a2, _ | ⟨a3, _ | ⟨a4, _ | ⟨a5, _ | ⟨a6, _ |
    ⟨a7, _ | ⟨a8, _ | ⟨a9, _ | ⟨a10, rest⟩⟩⟩⟩⟩⟩⟩⟩⟩⟩⟩
  all_goals first
    | rfl
    | (exfalso; exact hlen rfl)

theorem processLine_error_eq (acc : BuildAcc) (l : Str) (e : PyError)
    (h : processLine acc l = .error e) : e = PyError.assertionError := by
  unfold processLine at h
  split at h
  · cases h
  · split at h
    · cases h
    · exact (Except.error.inj h).symm

theorem runLines_error (ls : List Str) :
    ∀ acc : BuildAcc,
      (∃ l ∈ ls, startsWithHash l = false ∧ (splitCh '\t' (stripNl l)).length ≠ 10) →
      runLines acc ls = .error .assertionError := by
  induction ls with
  | nil =>
    intro acc h
    simp at h
  | cons l tl ih =>
    intro acc h
    simp only [runLines]
    rcases h with ⟨l0, hl0mem, hbad⟩
    rcases List.mem_cons.mp hl0mem with he | hm
    · subst he
      rw [processLine_bad acc l0 hbad.1 hbad.2]
    · cases hp : processLine acc l with
      | ok acc2 => exact ih acc2 ⟨l0, hm, hbad⟩
      | error e =>
        rw [processLine_error_eq acc l e hp]

/-- Claim C3: a block containing a non-comment line that does not split on
tabs into exactly ten fields makes `conllu2graph` fail with the
AssertionError of the `assert len(fields) == 10` guard (the code's
realisation of `MalformedRecord`); the result carries no `BuildAcc`, so no
partially constructed tree is observable. -/
theorem c3_malformed (record : Str)
    (h : ∃ l ∈ pySplitlines record, startsWithHash l = false ∧
      (splitCh '\t' (stripNl l)).length ≠ 10) :
    conllu2graph record = .error .assertionError := by
  unfold conllu2graph
  exact runLines_error (pySplitlines record) ⟨[], [], [], []⟩ h

/-- Witness for C3 at a three-field line. -/
theorem c3_malformed_witness : conllu2graph badBlock = .error .assertionError :=
  c3_malformed badBlock (by decide)

/-! ### Graph counting -/

theorem countE_append (e : UDEdge) (l1 l2 : List UDEdge) :
    countE e (l1 ++ l2) = countE e l1 + countE e l2 := by
  induction l1 with
  | nil => simp [countE]
  | cons x xs ih => simp [countE, ih, Nat.add_assoc]

theorem dictLookup_graphAppend (g : List (Str × List UDEdge)) (k k2 : Str) (e : UDEdge) :
    dictLookup (graphAppend g k e) k2 =
      if k2 = k then some (edgesAt g k ++ [e]) else dictLookup g k2 := by
  induction g with
  | nil =>
    by_cases h : k2 = k
    · simp [graphAppend, dictLookup, edgesAt, h]
    · have h2 : ¬ k = k2 := fun he => h he.symm
      simp [graphAppend, dictLookup, h, h2]
  | cons p rest ih =>
    obtain ⟨k0, es⟩ := p
    by_cases h0 : k0 = k
    · subst h0
      by_cases h2 : k2 = k0
      · simp [graphAppend, dictLookup, edgesAt, h2]
      · have h3 : ¬ k0 = k2 := fun he => h2 he.symm
        simp [graphAppend, dictLookup, h2, h3]
    · by_cases h2 : k2 = k
      · subst h2
        have h3 : ¬ k0 = k2 := h0
        simp [graphAppend, dictLookup, edgesAt, h0, h3, ih]
      · by_cases h3 : k0 = k2
        · simp [graphAppend, dictLookup, h0, h2, h3, ih]
        · simp [graphAppend, dictLookup, h0, h2, h3, ih]

theorem edgesAt_graphAppend (g : List (Str × List UDEdge)) (k k2 : Str) (e : UDEdge) :
    edgesAt (graphAppend g k e) k2 =
      if k2 = k then edgesAt g k ++ [e] else edgesAt g k2 := by
  unfold edgesAt
  rw [dictLookup_graphAppend]
  by_cases h : k2 = k <;> simp [h, edgesAt]

theorem countEdge_stepG (g : List (Str × List UDEdge)) (n : UDNode) (k : Str) (e : UDEdge) :
    countEdge (stepG g n) k e = countEdge g k e + contrib k e n := by
  unfold stepG contrib
  by_cases hh : n.HEAD = underscoreS
  · simp [hh]
  · rw [if_neg hh, if_neg hh]
    unfold countEdge
    rw [edgesAt_graphAppend]
    by_cases h1 : k = n.HEAD
    · subst h1
      rw [if_pos rfl, edgesAt_graphAppend]
      by_cases h2 : n.HEAD = n.ID
      · rw [if_pos h2, h2]
        simp [countE_append, countE, Nat.add_assoc]
      · rw [if_neg h2]
        simp [countE_append, countE, h2]
    · rw [if_neg h1, edgesAt_graphAppend]
      by_cases h2 : k = n.ID
      · subst h2
        rw [if_pos rfl]
        simp [countE_append, countE, h1]
      · rw [if_neg h2]
        simp [h1, h2]

theorem countEdge_foldl_stepG (ns : List UDNode) :
    ∀ (g : List (Str × List UDEdge)) (k : Str) (e : UDEdge),
      countEdge (ns.foldl stepG g) k e = countEdge g k e + (ns.map (contrib k e)).sum := by
  induction ns with
  | nil => intro g k e; simp
  | cons n tl ih =>
    intro g k e
    simp only [List.foldl_cons, List.map_cons, List.sum_cons]
    rw [ih (stepG g n) k e, countEdge_stepG, Nat.add_assoc]

theorem contrib_up_ne (n m : UDNode) (hne : m.ID ≠ n.ID) :
    contrib n.ID (upEdge n) m = 0 := by
  unfold contrib
  by_cases hh : m.HEAD = underscoreS
  · simp [hh]
  · rw [if_neg hh]
    have h1 : ¬ (n.ID = m.ID ∧ upEdge m = upEdge n) := by
      rintro ⟨h1, _⟩
      exact hne h1.symm
    have h2 : ¬ (n.ID = m.HEAD ∧ downEdge m = upEdge n) := by
      rintro ⟨_, hd⟩
      have hdir : downS = upS := congrArg UDEdge.directionality hd
      exact absurd hdir (by decide)
    simp [h1, h2]

theorem contrib_up_self (n : UDNode) (hh : n.HEAD ≠ underscoreS) :
    contrib n.ID (upEdge n) n = 1 := by
  unfold contrib
  rw [if_neg hh]
  have h2 : ¬ (n.ID = n.HEAD ∧ downEdge n = upEdge n) := by
    rintro ⟨_, hd⟩
    have hdir : downS = upS := congrArg UDEdge.directionality hd
    exact absurd hdir (by decide)
  simp [h2]

theorem contrib_down_ne (n m : UDNode) (hne : m.ID ≠ n.ID) :
    contrib n.HEAD (downEdge n) m = 0 := by
  unfold contrib
  by_cases hh : m.HEAD = underscoreS
  · simp [hh]
  · rw [if_neg hh]
    have h1 : ¬ (n.HEAD = m.ID ∧ upEdge m = downEdge n) := by
      rintro ⟨_, hd⟩
      have hdir : upS = downS := congrArg UDEdge.directionality hd
      exact absurd hdir (by decide)
    have h2 : ¬ (n.HEAD = m.HEAD ∧ downEdge m = downEdge n) := by
      rintro ⟨_, hd⟩
      have hid : m.ID = n.ID := congrArg UDEdge.head hd
      exact hne hid
    simp [h1, h2]

theorem contrib_down_self (n : UDNode) (hh : n.HEAD ≠ underscoreS) :
    contrib n.HEAD (downEdge n) n = 1 := by
  unfold contrib
  rw [if_neg hh]
  have h1 : ¬ (n.HEAD = n.ID ∧ upEdge n = downEdge n) := by
    rintro ⟨_, hd⟩
    have hdir : upS = downS := congrArg UDEdge.directionality hd
    exact absurd hdir (by decide)
  simp [h1]

/-! ### Claim C2: edge symmetry -/

/-- Claim C2: for every parsed block with pairwise-distinct IDs and every
row `n` whose `HEAD` is not the placeholder `_`, the built graph holds
exactly one edge `(head = n.HEAD, relation = n.DEPREL, "up")` under `n.ID`
and exactly one edge `(head = n.ID, relation = n.DEPREL, "down")` under
`n.HEAD`. -/
theorem c2_edge_symmetry (comments : List Str) (ns : List UDNode) (n : UDNode)
    (hc : ∀ l ∈ comments, commentOK l) (hn : ∀ x ∈ ns, nodeOK x)
    (hdist : (ns.map (fun x => x.ID)).Nodup) (hmem : n ∈ ns)
    (hhead : n.HEAD ≠ underscoreS) :
    countEdge (graphOf (conllu2graph (mkBlock comments ns))) n.ID (upEdge n) = 1 ∧
    countEdge (graphOf (conllu2graph (mkBlock comments ns))) n.HEAD (downEdge n) = 1 := by
  have h := conllu2graph_mkBlock comments ns hc hn
  rw [foldl_stepNode_spec] at h
  rw [h]
  unfold graphOf
  dsimp only
  obtain ⟨l1, l2, rfl⟩ := List.append_of_mem hmem
  have hdist2 : (n.ID :: (l1.map (fun x => x.ID) ++ l2.map (fun x => x.ID))).Nodup := by
    rw [List.map_append, List.map_cons] at hdist
    exact List.nodup_middle.mp hdist
  have hnotin : n.ID ∉ l1.map (fun x => x.ID) ++ l2.map (fun x => x.ID) :=
    (List.nodup_cons.mp hdist2).1
  have hne1 : ∀ m ∈ l1, m.ID ≠ n.ID := by
    intro m hm he
    exact hnotin (List.mem_append_left _ (he ▸ List.mem_map_of_mem (fun x => x.ID) hm))
  have hne2 : ∀ m ∈ l2, m.ID ≠ n.ID := by
    intro m hm he
    exact hnotin (List.mem_append_right _ (he ▸ List.mem_map_of_mem (fun x => x.ID) hm))
  constructor
  · rw [countEdge_foldl_stepG]
    rw [List.map_append, List.map_cons, List.sum_append, List.sum_cons]
    rw [List.sum_eq_zero (by
      intro x hx
      rcases List.mem_map.mp hx with ⟨m, hm, rfl⟩
      exact contrib_up_ne n m (hne1 m hm))]
    rw [List.sum_eq_zero (by
      intro x hx
      rcases List.mem_map.mp hx with ⟨m, hm, rfl⟩
      exact contrib_up_ne n m (hne2 m hm))]
    rw [contrib_up_self n hhead]
    simp [countEdge, edgesAt, dictLookup, countE]
  · rw [countEdge_foldl_stepG]
    rw [List.map_append, List.map_cons, List.sum_append, List.sum_cons]
    rw [List.sum_eq_zero (by
      intro x hx
      rcases List.mem_map.mp hx with ⟨m, hm, rfl⟩
      exact contrib_down_ne n m (hne1 m hm))]
    rw [List.sum_eq_zero (by
      intro x hx
      rcases List.mem_map.mp hx with ⟨m, hm, rfl⟩
      exact contrib_down_ne n m (hne2 m hm))]
    rw [contrib_down_self n hhead]
    simp [countEdge, edgesAt, dictLookup, countE]

/-- Witness for C2 at the root row of the scenario block. -/
theorem c2_edge_symmetry_witness :
    countEdge (graphOf (conllu2graph (mkBlock exComments exNodes))) exN3.ID (upEdge exN3) = 1 ∧
    countEdge (graphOf (conllu2graph (mkBlock exComments exNodes))) exN3.HEAD (downEdge exN3) = 1 :=
  c2_edge_symmetry exComments exNodes exN3 (by decide) (by decide) (by decide)
    (by decide) (by decide)

/-! ### Claim C8: placeholder heads and graph entries -/

theorem foldl_stepG_filter (ns : List UDNode) :
    ∀ g : List (Str × List UDEdge),
      ns.foldl stepG g = (ns.filter (fun n => !(n.HEAD == underscoreS))).foldl stepG g := by
  induction ns with
  | nil => intro g; rfl
  | cons n tl ih =>
    intro g
    by_cases hh : n.HEAD = underscoreS
    · have hstep : stepG g n = g := by rw [stepG, if_pos hh]
      have hcond : (!(n.HEAD == underscoreS)) = false := by simp [hh]
      rw [List.foldl_cons, hstep, List.filter_cons, hcond]
      simp only [Bool.false_eq_true, if_false]
      exact ih g
    · have hbeq : (n.HEAD == underscoreS) = false := by
        simp [hh]
      simp only [List.foldl_cons, List.filter_cons, hbeq, Bool.not_false, if_pos]
      exact ih (stepG g n)

theorem graphAppend_values_ne_nil (g : List (Str × List UDEdge)) (k : Str) (e : UDEdge)
    (h : ∀ p ∈ g, p.2 ≠ []) : ∀ p ∈ graphAppend g k e, p.2 ≠ [] := by
  induction g with
  | nil =>
    intro p hp
    simp only [graphAppend, List.mem_singleton] at hp
    subst hp
    simp
  | cons q rest ih =>
    intro p hp
    obtain ⟨k0, es⟩ := q
    by_cases h0 : k0 = k
    · simp only [graphAppend, if_pos h0] at hp
      rcases List.mem_cons.mp hp with he | hm
      · subst he
        simp
      · exact h p (List.mem_cons_of_mem _ hm)
    · simp only [graphAppend, if_neg h0] at hp
      rcases List.mem_cons.mp hp with he | hm
      · subst he
        exact h (k0, es) (List.mem_cons_self _ _)
      · exact ih (fun q hq => h q (List.mem_cons_of_mem _ hq)) p hm

theorem stepG_values_ne_nil (g : List (Str × List UDEdge)) (n : UDNode)
    (h : ∀ p ∈ g, p.2 ≠ []) : ∀ p ∈ stepG g n, p.2 ≠ [] := by
  unfold stepG
  by_cases hh : n.HEAD = underscoreS
  · rw [if_pos hh]
    exact h
  · rw [if_neg hh]
    exact graphAppend_values_ne_nil _ _ _ (graphAppend_values_ne_nil _ _ _ h)

theorem foldl_stepG_values_ne_nil (ns : List UDNode) :
    ∀ g : List (Str × List UDEdge), (∀ p ∈ g, p.2 ≠ []) →
      ∀ p ∈ ns.foldl stepG g, p.2 ≠ [] := by
  induction ns with
  | nil => intro g h; exact h
  | cons n tl ih =>
    intro g h
    exact ih (stepG g n) (stepG_values_ne_nil g n h)

theorem dictLookup_mem {α : Type} (d : List (Str × α)) (k : Str) (v : α)
    (h : dictLookup d k = some v) : (k, v) ∈ d := by
  induction d with
  | nil => cases h
  | cons p rest ih =>
    obtain ⟨k0, v0⟩ := p
    by_cases h0 : k0 = k
    · subst h0
      simp only [dictLookup, eq_self_iff_true, if_true, Option.some.injEq] at h
      subst h
      exact List.mem_cons_self _ _
    · simp only [dictLookup, if_neg h0] at h
      exact List.mem_cons_of_mem _ (ih h)

theorem lookup_ne_none_iff_edges (g : List (Str × List UDEdge))
    (hg : ∀ p ∈ g, p.2 ≠ []) (k : Str) :
    dictLookup g k ≠ none ↔ edgesAt g k ≠ [] := by
  constructor
  · intro h
    cases hl : dictLookup g k with
    | none => exact absurd hl h
    | some es =>
      have hne : es ≠ [] := hg (k, es) (dictLookup_mem g k es hl)
      simpa [edgesAt, hl]
  · intro h hl
    exact h (by simp [edgesAt, hl])

/-- Claim C8: a row whose `HEAD` field is the placeholder `_` contributes
no edges at all — the graph built from a block equals the graph built from
the same block with all placeholder-head rows removed — and the graph has
an entry under a key exactly when that key's edge list is nonempty. -/
theorem c8_placeholder_rows (comments : List Str) (ns : List UDNode) (k : Str)
    (hc : ∀ l ∈ comments, commentOK l) (hn : ∀ x ∈ ns, nodeOK x) :
    graphOf (conllu2graph (mkBlock comments ns)) =
      graphOf (conllu2graph (mkBlock comments
        (ns.filter (fun n => !(n.HEAD == underscoreS))))) ∧
    (dictLookup (graphOf (conllu2graph (mkBlock comments ns))) k ≠ none ↔
      edgesAt (graphOf (conllu2graph (mkBlock comments ns))) k ≠ []) := by
  have h1 := conllu2graph_mkBlock comments ns hc hn
  rw [foldl_stepNode_spec] at h1
  have hn2 : ∀ x ∈ ns.filter (fun n => !(n.HEAD == underscoreS)), nodeOK x :=
    fun x hx => hn x (List.mem_of_mem_filter hx)
  have h2 := conllu2graph_mkBlock comments _ hc hn2
  rw [foldl_stepNode_spec] at h2
  rw [h1, h2]
  unfold graphOf
  dsimp only
  refine ⟨foldl_stepG_filter ns [], ?_⟩
  exact lookup_ne_none_iff_edges _ (foldl_stepG_values_ne_nil ns [] (by simp)) k

/-- Witness for C8 at a block with a multiword-token (placeholder-head)
row, queried at the key of its root row. -/
theorem c8_placeholder_rows_witness :
    graphOf (conllu2graph (mkBlock exComments wtNodes)) =
      graphOf (conllu2graph (mkBlock exComments
        (wtNodes.filter (fun n => !(n.HEAD == underscoreS))))) ∧
    (dictLookup (graphOf (conllu2graph (mkBlock exComments wtNodes))) ['1'] ≠ none ↔
      edgesAt (graphOf (conllu2graph (mkBlock exComments wtNodes))) ['1'] ≠ []) :=
  c8_placeholder_rows exComments wtNodes ['1'] (by decide) (by decide)

/-! ### Claim C6: children lookup -/

/-- Claim C6: `get_node_children` returns exactly the `head` fields of the
`"down"` edges stored under the queried key, in stored (insertion) order;
a key absent from the graph yields the empty list (its edge list is
empty), not an error. -/
theorem c6_children (t : UDTree) (k : Str) :
    (t.get_node_children k).1 =
      ((edgesAt t.graph k).filter (fun e => e.directionality = downS)).map
        (fun e => e.head) ∧
    (dictLookup t.graph k = none → (t.get_node_children k).1 = []) := by
  constructor
  · unfold UDTree.get_node_children defaultGet
    cases hl : dictLookup t.graph k with
    | none => simp [edgesAt, hl]
    | some es => simp [edgesAt, hl]
  · intro h
    unfold UDTree.get_node_children defaultGet
    rw [h]
    rfl

/-- Witness for C6: the absent key `"9"` of the scenario tree yields no
children and no error. -/
theorem c6_children_witness : ((treeOf exBlock).get_node_children nineS).1 = [] :=
  (c6_children (treeOf exBlock) nineS).2 (by decide)

/-! ### Claim C7: sentence reconstruction -/

theorem sentenceForms_ok (nodes : List (Str × UDNode)) (ks : List Str)
    (h : ∀ k ∈ ks, dictLookup nodes k ≠ none) :
    sentenceForms nodes ks = .ok (ks.map (fun k => pyLower (nodeD nodes k).FORM)) := by
  induction ks with
  | nil => rfl
  | cons k tl ih =>
    cases hl : dictLookup nodes k with
    | none => exact absurd hl (h k (List.mem_cons_self _ _))
    | some n =>
      simp only [sentenceForms, hl, List.map_cons]
      rw [ih (fun x hx => h x (List.mem_cons_of_mem _ hx))]
      simp [nodeD, hl]

/-- Claim C7: for every tree whose keys all have nodes, `get_sentence`
returns the `FORM` fields of `nodes[k]` for each `k` in `keys` order, each
lowercased, joined by single spaces, with no key filtered out. -/
theorem c7_sentence (t : UDTree) (h : ∀ k ∈ t.keys, dictLookup t.nodes k ≠ none) :
    t.get_sentence = .ok (joinCh ' '
      (t.keys.map (fun k => pyLower (nodeD t.nodes k).FORM))) := by
  unfold UDTree.get_sentence
  rw [sentenceForms_ok t.nodes t.keys h]

/-- Witness for C7 at the scenario tree. -/
theorem c7_sentence_witness :
    (treeOf exBlock).get_sentence = .ok (joinCh ' '
      ((treeOf exBlock).keys.map
        (fun k => pyLower (nodeD (treeOf exBlock).nodes k).FORM))) :=
  c7_sentence (treeOf exBlock) (by decide)

/-! ### Claim C4: missing root -/

/-- Claim C4 (code divergence): on a tree whose virtual root `"0"` has no
down-edge — here the tree parsed from `c4Block`, whose single row has the
placeholder head, so the graph is empty — `get_real_root` fails with the
uncontrolled IndexError of `self.get_node_children('0')[0]`; the code has
no `MissingRoot` error anywhere.  The second conjunct records the part of
the claim the code does satisfy: with a down-edge at `"0"` present, the
first child of the virtual root is returned. -/
theorem c4_real_root_indexerror :
    ((treeOf c4Block).get_real_root).1 = .error .indexError ∧
    ((treeOf exBlock).get_real_root).1 = .ok ['3'] := by
  decide

/-! ### Claim C9: immutability -/

/-- Counterexample to C9 as stated: querying children for the key `"9"`,
absent from the scenario tree's graph, inserts that key into the graph
(`defaultdict.__getitem__` side effect), so the set of keys present in
the graph mapping changes. -/
theorem c9_counterexample :
    dictLookup (treeOf exBlock).graph nineS = none ∧
    dictLookup (((treeOf exBlock).get_node_children nineS).2).graph nineS = some [] := by
  decide

/-- Claim C9 (amended): after construction no operation changes
`id_lines`, `keys` or `nodes`, and a children query for a key present in
the graph returns the tree unchanged; but a children query for an absent
key (also the one `get_real_root` makes at `"0"`) appends that key with an
empty edge list to the graph, so the set of keys present in the graph
grows by the queried key. -/
theorem c9_mutation (t : UDTree) (k : Str) :
    ((t.get_node_children k).2.id_lines = t.id_lines ∧
     (t.get_node_children k).2.keys = t.keys ∧
     (t.get_node_children k).2.nodes = t.nodes) ∧
    (dictLookup t.graph k ≠ none → (t.get_node_children k).2 = t) ∧
    (dictLookup t.graph k = none →
      (t.get_node_children k).2.graph = t.graph ++ [(k, [])]) := by
  unfold UDTree.get_node_children defaultGet
  cases hl : dictLookup t.graph k with
  | none =>
    refine ⟨⟨rfl, rfl, rfl⟩, ?_, ?_⟩
    · intro hne
      exact absurd rfl hne
    · intro _
      rfl
  | some es =>
    refine ⟨⟨rfl, rfl, rfl⟩, ?_, ?_⟩
    · intro _
      rfl
    · intro h
      exact Option.noConfusion h

/-- Witness for C9 (amended) at the scenario tree and the absent key `"9"`. -/
theorem c9_mutation_witness :
    (((treeOf exBlock).get_node_children nineS).2).graph =
      (treeOf exBlock).graph ++ [(nineS, [])] :=
  (c9_mutation (treeOf exBlock) nineS).2.2 (by decide)
